import Mathlib

/-!
Verification of the JAV-NFO-Generator core: the identifier normalizer /
transcoder (`src/utils/pattern.py`) and the multi-scraper merge engine
(`src/utils/multi_scraper.py`).

Python strings of the pattern module are modelled as lists of code points
(`List Nat`); the regex character classes are ASCII, matching the ASCII
ranges the Python code uses (`[A-Za-z0-9-]`, `[a-zA-Z]`; `\d` is evaluated
only at ASCII data here).  `str.lower` / `str.upper` are modelled as the
ASCII case maps where they act on ASCII data, and where `str.upper()` is
applied to raw input (the fallback of `content_id_to_jav_code`) a refined
map `upperChU` additionally carries the non-ASCII-to-ASCII mappings the
theorems evaluate (U+0131, U+017F).
-/

namespace JavNfo

/-- A Python string, as a list of code points. -/
abbrev PyStr := List Nat

/-- Code points of a Lean string literal, for concrete test inputs. -/
def pyOfString (s : String) : PyStr := s.data.map Char.toNat

/-- The code point of `-`. -/
def dashCh : Nat := 45

/-- The code point of `0`. -/
def zeroCh : Nat := 48

/-- ASCII upper-case letter. -/
def isUpperAlpha (c : Nat) : Bool := decide (65 ≤ c ∧ c ≤ 90)

/-- ASCII lower-case letter. -/
def isLowerAlpha (c : Nat) : Bool := decide (97 ≤ c ∧ c ≤ 122)

/-- ASCII letter (the regex class `[a-zA-Z]`). -/
def isAlphaCh (c : Nat) : Bool := isUpperAlpha c || isLowerAlpha c

/-- ASCII digit (the regex class `[0-9]`). -/
def isDigitCh (c : Nat) : Bool := decide (48 ≤ c ∧ c ≤ 57)

/-- `str.lower` on one character (ASCII). -/
def lowerCh (c : Nat) : Nat := if isUpperAlpha c then c + 32 else c

/-- `str.upper` on one character (ASCII). -/
def upperCh (c : Nat) : Nat := if isLowerAlpha c then c - 32 else c

/-- `str.lower`. -/
def pyLower (s : PyStr) : PyStr := s.map lowerCh

/-- `str.upper`. -/
def pyUpper (s : PyStr) : PyStr := s.map upperCh

/-- The character class `[A-Za-z0-9-]` of `re.sub(r'[^A-Za-z0-9-]', '', _)`. -/
def keepChar (c : Nat) : Bool := isAlphaCh c || isDigitCh c || c == dashCh

/-- `re.sub(r'[^A-Za-z0-9-]', '', s)`: drop every character that is not an
ASCII letter, digit or hyphen. -/
def cleanCode (s : PyStr) : PyStr := s.filter keepChar

/-- Python `s.split('-')`. -/
def splitDash : PyStr → List PyStr
  | [] => [[]]
  | c :: cs =>
    let r := splitDash cs
    if c = dashCh then [] :: r
    else
      match r with
      | [] => [[c]]
      | p :: ps => (c :: p) :: ps

/-- Python `s.zfill(w)` on a sign-less string: left-pad with `0` to width
`w` (the inputs fed to `zfill` here never carry a sign character, as they are
hyphen-free parts of a `[A-Za-z0-9-]`-filtered string). -/
def zfill (w : Nat) (s : PyStr) : PyStr := List.replicate (w - s.length) zeroCh ++ s

/-- First-match association-list lookup (Python `dict.get` over the literal
rule tables). -/
def tableGet {α : Type} : List (PyStr × α) → PyStr → Option α
  | [], _ => none
  | (k, v) :: rest, key => if k = key then some v else tableGet rest key

/-- The `no_zero_pad_codes` set of `jav_code_to_content_id`. -/
def noZeroPadCodes : List PyStr :=
  ["smus", "smjh", "smub", "smjs", "smjx", "orecz", "nost", "mfc", "mfcs"].map pyOfString

/-- The `prefix_1_codes` set of `jav_code_to_content_id`. -/
def prefix1Codes : List PyStr :=
  ["sdmf", "dldss", "sw", "start", "stars", "piyo", "sdam", "sdmm", "hawa", "fsdss", "senn"].map pyOfString

/-- The `h_prefix_codes` table of `jav_code_to_content_id`. -/
def hPrefixCodes : List (PyStr × PyStr) :=
  [("milk", "h_1240"), ("ambi", "h_237"), ("fnew", "h_491"),
   ("einav", "h_1350"), ("pjab", "h_1604")].map
    (fun p => (pyOfString p.1, pyOfString p.2))

/-- The `numeric_prefix_codes` table of `jav_code_to_content_id`. -/
def numericPrefixCodes : List (PyStr × PyStr) :=
  [("dhld", "36"), ("fays", "55")].map (fun p => (pyOfString p.1, pyOfString p.2))

/-- `PatternMatcher.jav_code_to_content_id` (src/utils/pattern.py:31-92). -/
def jav_code_to_content_id (jav_code : PyStr) : PyStr :=
  let clean_code := cleanCode jav_code
  match splitDash clean_code with
  | [pre, number] =>
    let prefix_lower := pyLower pre
    if prefix_lower = pyOfString "t28" then
      pyOfString "55t28" ++ zfill 5 number
    else if prefix_lower = pyOfString "abf" ∨ prefix_lower = pyOfString "abw" then
      pyOfString "118" ++ prefix_lower ++ zfill 3 number
    else if prefix_lower ∈ noZeroPadCodes then
      prefix_lower ++ zfill 3 number
    else
      let padded_number := zfill 5 number
      if prefix_lower ∈ prefix1Codes then
        pyOfString "1" ++ prefix_lower ++ padded_number
      else
        match tableGet hPrefixCodes prefix_lower with
        | some h => h ++ prefix_lower ++ padded_number
        | none =>
          match tableGet numericPrefixCodes prefix_lower with
          | some np => np ++ prefix_lower ++ padded_number
          | none => prefix_lower ++ padded_number
  | _ => pyLower jav_code

/-- `str(int(number))`: strip leading zeros from a digit string, collapsing
an all-zero string to `"0"`. -/
def stripIntZeros (s : PyStr) : PyStr :=
  match s.dropWhile (fun c => c == zeroCh) with
  | [] => [zeroCh]
  | r => r

/-- `PatternMatcher.content_id_to_jav_code` (src/utils/pattern.py:94-118).
`re.match(r'([a-zA-Z]+)(\d+)', s)` succeeds exactly when the maximal leading
run of letters is nonempty and is directly followed by a digit; the groups
are that run and the maximal digit run after it (trailing input is ignored by
`re.match`). -/
def content_id_to_jav_code (content_id : PyStr) : PyStr :=
  let letters := content_id.takeWhile isAlphaCh
  let digits := (content_id.dropWhile isAlphaCh).takeWhile isDigitCh
  if letters = [] ∨ digits = [] then pyUpper content_id
  else pyUpper letters ++ dashCh :: stripIntZeros digits

/-- Python `str.upper()` on one code point, refined beyond ASCII: exact on
ASCII and on the non-ASCII code points the theorems below evaluate it at —
U+0131 LATIN SMALL LETTER DOTLESS I uppercases to ASCII `I` and U+017F LATIN
SMALL LETTER LONG S to ASCII `S`.  Python's `upper()` also maps (and in a
few cases expands, e.g. U+00DF to `SS`) further non-ASCII code points, which
this map leaves fixed; no theorem in this file evaluates it there. -/
def upperChU (c : Nat) : Nat :=
  if c = 0x131 then 0x49
  else if c = 0x17F then 0x53
  else upperCh c

/-- `str.upper` with the refined case map. -/
def pyUpperU (s : PyStr) : PyStr := s.map upperChU

/-- `PatternMatcher.content_id_to_jav_code` with the refined case map
`pyUpperU`: the faithful model of the function at the non-ASCII inputs
exercised by claim C10.  The regex classes stay as in the ASCII model:
`[a-zA-Z]` is ASCII in Python too, and `\d` agrees with ASCII `[0-9]` on
every code point the theorems below feed through this function. -/
def content_id_to_jav_code_u (content_id : PyStr) : PyStr :=
  let letters := content_id.takeWhile isAlphaCh
  let digits := (content_id.dropWhile isAlphaCh).takeWhile isDigitCh
  if letters = [] ∨ digits = [] then pyUpperU content_id
  else pyUpperU letters ++ dashCh :: stripIntZeros digits

/-- `PatternMatcher.normalize_jav_code` (src/utils/pattern.py:175-192). -/
def normalize_jav_code (code : PyStr) : PyStr := pyUpper (cleanCode code)

/-!
The multi-scraper merge engine (src/utils/multi_scraper.py).  Python values
stored in scraper records are modelled by `Val` (floats do not occur in the
scraper outputs and are omitted); Python dicts are modelled as association
lists with first-match lookup and in-place update, mirroring insertion-order
dict semantics.  The settings read by `MultiScraperManager`
(`SCRAPER_MERGE_STRATEGY`, the field-priority table, `ENABLED_SCRAPERS`) are
passed as parameters.
-/

/-- A Python value held in a scraper result record. -/
inductive Val : Type where
  | vNone : Val
  | vStr : String → Val
  | vInt : Int → Val
  | vList : List Val → Val
  | vDict : List (String × Val) → Val

mutual

/-- Python `==` on modelled values (used by set membership in the
de-duplication loop); values of different shapes compare unequal. -/
def Val.beq : Val → Val → Bool
  | .vNone, .vNone => true
  | .vStr a, .vStr b => a = b
  | .vInt a, .vInt b => a = b
  | .vList a, .vList b => Val.beqList a b
  | .vDict a, .vDict b => Val.beqDict a b
  | _, _ => false

/-- Python `==` on lists of values. -/
def Val.beqList : List Val → List Val → Bool
  | [], [] => true
  | a :: as, b :: bs => Val.beq a b && Val.beqList as bs
  | _, _ => false

/-- Python `==` on dicts of values (association lists). -/
def Val.beqDict : List (String × Val) → List (String × Val) → Bool
  | [], [] => true
  | (k, a) :: as, (l, b) :: bs => (k = l : Bool) && Val.beq a b && Val.beqDict as bs
  | _, _ => false

end

/-- A scraper's result record: a Python dict from field name to value. -/
abbrev PRec := List (String × Val)

/-- The fan-out result: a Python dict from scraper name to optional record. -/
abbrev Results := List (String × Option PRec)

/-- Python dict lookup (first match). -/
def dictGet {α : Type} : List (String × α) → String → Option α
  | [], _ => none
  | (k, v) :: rest, key => if k = key then some v else dictGet rest key

/-- Python dict assignment `d[k] = v`: replace in place, or append. -/
def dictInsert {α : Type} : List (String × α) → String → α → List (String × α)
  | [], key, v => [(key, v)]
  | (k, w) :: rest, key, v =>
    if k = key then (key, v) :: rest else (k, w) :: dictInsert rest key v

mutual

/-- Python `str(v)` (repr escaping of special characters inside strings is
not reproduced; the scraper data contains none). -/
def pyStrVal : Val → String
  | .vNone => "None"
  | .vStr s => s
  | .vInt n => toString n
  | .vList xs => "[" ++ String.intercalate ", " (pyReprList xs) ++ "]"
  | .vDict kvs => "\x7b" ++ String.intercalate ", " (pyReprDict kvs) ++ "\x7d"

/-- Python `repr(v)`. -/
def pyReprVal : Val → String
  | .vNone => "None"
  | .vStr s => "'" ++ s ++ "'"
  | .vInt n => toString n
  | .vList xs => "[" ++ String.intercalate ", " (pyReprList xs) ++ "]"
  | .vDict kvs => "\x7b" ++ String.intercalate ", " (pyReprDict kvs) ++ "\x7d"

/-- `repr` of each element of a list. -/
def pyReprList : List Val → List String
  | [] => []
  | v :: vs => pyReprVal v :: pyReprList vs

/-- `repr(key): repr(value)` of each entry of a dict. -/
def pyReprDict : List (String × Val) → List String
  | [] => []
  | (k, v) :: kvs => ("'" ++ k ++ "': " ++ pyReprVal v) :: pyReprDict kvs

end

/-- A whitespace character removed by Python `str.strip()` (ASCII range). -/
def isSpaceCh (c : Char) : Bool :=
  c = ' ' ∨ c = '\t' ∨ c = '\n' ∨ c = '\r' ∨ c = '\x0b' ∨ c = '\x0c'

/-- The character data of Python `s.strip()`. -/
def stripData (l : List Char) : List Char :=
  ((l.dropWhile isSpaceCh).reverse.dropWhile isSpaceCh).reverse

/-- `MultiScraperManager._is_valid_value` (src/utils/multi_scraper.py:178-196). -/
def is_valid_value : Val → Bool
  | .vNone => false
  | .vStr s => !(stripData s.data).isEmpty
  | .vList xs => !(xs.length = 0)
  | .vDict kvs => !(kvs.length = 0)
  | .vInt n => !(n = 0)

/-- The de-duplication identifier of one list item in
`MultiScraperManager._merge_list_field`: `item.get('name', item.get('id',
str(item)))` for dict items, `str(item)` otherwise. -/
def dedupKey (item : Val) : Val :=
  match item with
  | .vDict kvs =>
    match dictGet kvs "name" with
    | some v => v
    | none =>
      match dictGet kvs "id" with
      | some v => v
      | none => .vStr (pyStrVal item)
  | _ => .vStr (pyStrVal item)

/-- The inner item loop of `_merge_list_field`: append each item whose
identifier has not been seen, threading the seen set and accumulator. -/
def addItems : List Val → List Val → List Val → List Val × List Val
  | seen, acc, [] => (seen, acc)
  | seen, acc, item :: rest =>
    let key := dedupKey item
    if seen.any (Val.beq key) then addItems seen acc rest
    else addItems (key :: seen) (acc ++ [item]) rest

/-- The provider loop of `_merge_list_field`, over the priority list. -/
def mergeListGo (results : Results) (field : String) :
    List String → List Val → List Val → List Val
  | [], _, acc => acc
  | name :: rest, seen, acc =>
    match dictGet results name with
    | some (some r) =>
      if r.isEmpty then mergeListGo results field rest seen acc
      else
        match dictGet r field with
        | some (.vList items) =>
          let p := addItems seen acc items
          mergeListGo results field rest p.1 p.2
        | _ => mergeListGo results field rest seen acc
    | _ => mergeListGo results field rest seen acc

/-- `MultiScraperManager._merge_list_field` (src/utils/multi_scraper.py:143-176). -/
def merge_list_field (fieldPriorities : List (String × List String))
    (enabled : List String) (field : String) (results : Results) : List Val :=
  let priority_list := (dictGet fieldPriorities field).getD enabled
  mergeListGo results field priority_list [] []

/-- The field names designated for list merging in
`_get_field_by_priority_with_source` (src/utils/multi_scraper.py:128). -/
def listMergeFields : List String :=
  ["actresses", "actors", "directors", "categories", "gallery"]

/-- The priority walk of `_get_field_by_priority_with_source`
(src/utils/multi_scraper.py:134-141): first scraper in the priority list
whose entry is a truthy record containing the field with a valid value. -/
def priorityLoop (results : Results) (field : String) :
    List String → Option (Val × String)
  | [] => none
  | name :: rest =>
    match dictGet results name with
    | some (some r) =>
      if r.isEmpty then priorityLoop results field rest
      else
        match dictGet r field with
        | some v =>
          if is_valid_value v then some (v, name) else priorityLoop results field rest
        | none => priorityLoop results field rest
    | _ => priorityLoop results field rest

/-- `MultiScraperManager._get_field_by_priority_with_source`
(src/utils/multi_scraper.py:114-141). -/
def get_field_by_priority_with_source (strategy : String)
    (fieldPriorities : List (String × List String)) (enabled : List String)
    (field : String) (results : Results) : Option Val × Option String :=
  let priority_list := (dictGet fieldPriorities field).getD enabled
  if strategy = "merge" ∧ field ∈ listMergeFields then
    (some (.vList (merge_list_field fieldPriorities enabled field results)), none)
  else
    match priorityLoop results field priority_list with
    | some p => (some p.1, some p.2)
    | none => (none, none)

/-- Insert a key into the running set of field names (Python
`set.update`, modelled as a first-seen-ordered de-duplicated list). -/
def insertNew (acc : List String) (k : String) : List String :=
  if k ∈ acc then acc else acc ++ [k]

/-- The `all_fields` set of `merge_metadata` (src/utils/multi_scraper.py:79-82):
the union of the keys of all truthy records. -/
def allFields (results : Results) : List String :=
  results.foldl
    (fun acc pr =>
      match pr.2 with
      | some r => if r.isEmpty then acc else (r.map Prod.fst).foldl insertNew acc
      | none => acc)
    []

/-- One iteration of the field loop of `merge_metadata`
(src/utils/multi_scraper.py:86-91), updating the merged dict and the
`field_sources` dict.  A source is recorded only when it is truthy
(a nonempty scraper name). -/
def mergeStep (strategy : String) (fieldPriorities : List (String × List String))
    (enabled : List String) (results : Results)
    (st : PRec × List (String × String)) (field : String) :
    PRec × List (String × String) :=
  match get_field_by_priority_with_source strategy fieldPriorities enabled field results with
  | (some v, some s) =>
    (dictInsert st.1 field v,
     if s = "" then st.2 else dictInsert st.2 field s)
  | (some v, none) => (dictInsert st.1 field v, st.2)
  | (none, _) => st

/-- The bookkeeping keys attached by `merge_metadata`
(src/utils/multi_scraper.py:94-96). -/
def bookkeepingKeys : List String :=
  ["_scrapers_used", "_merge_strategy", "_field_sources"]

/-- `MultiScraperManager.merge_metadata` (src/utils/multi_scraper.py:66-98). -/
def merge_metadata (strategy : String)
    (fieldPriorities : List (String × List String)) (enabled : List String)
    (results : Results) : PRec :=
  let st := (allFields results).foldl
    (mergeStep strategy fieldPriorities enabled results) ([], [])
  let merged := dictInsert st.1 "_scrapers_used"
    (.vList (((results.filter (fun pr => pr.2.isSome)).map (fun pr => Val.vStr pr.1))))
  let merged := dictInsert merged "_merge_strategy" (.vStr strategy)
  dictInsert merged "_field_sources"
    (.vDict (st.2.map (fun kv => (kv.1, Val.vStr kv.2))))

/-- The outcome of one provider in `search_all_scrapers`: the factory may
fail to create the scraper (`none`), or the scraper's `search` either raises
(recorded as `none`) or returns its optional result. -/
def scraperOutcome {E : Type} (o : Option (Except E (Option PRec))) : Option PRec :=
  match o with
  | some (.ok r) => r
  | some (.error _) => none
  | none => none

/-- `MultiScraperManager.search_all_scrapers` (src/utils/multi_scraper.py:34-64):
query every enabled scraper, catching per-scraper exceptions and recording
`None` for a scraper that fails or cannot be created. -/
def search_all_scrapers {E : Type} (enabled : List String)
    (impl : String → Option (Except E (Option PRec))) : Results :=
  enabled.map (fun name => (name, scraperOutcome (impl name)))

/-- `MultiScraperManager.search_with_priority` (src/utils/multi_scraper.py:198-223). -/
def search_with_priority {E : Type} (strategy : String)
    (fieldPriorities : List (String × List String)) (enabled : List String)
    (impl : String → Option (Except E (Option PRec))) : Option PRec :=
  let scraper_results := search_all_scrapers enabled impl
  if scraper_results.all (fun pr => pr.2.isNone) then none
  else some (merge_metadata strategy fieldPriorities enabled scraper_results)

/-- `settings.ENABLED_SCRAPERS` (src/config/settings.py:61). -/
def ENABLED_SCRAPERS : List String := ["fanza", "r18dev"]

/-- The `field_priorities` table built in `MultiScraperManager.__init__`
(src/utils/multi_scraper.py:15-32) from the settings defaults
(src/config/settings.py:68-79). -/
def default_field_priorities : List (String × List String) :=
  [("title", ["r18dev", "fanza"]), ("title_en", ["r18dev", "fanza"]),
   ("actresses", ["r18dev", "fanza"]), ("actors", ["r18dev", "fanza"]),
   ("directors", ["r18dev", "fanza"]), ("categories", ["r18dev", "fanza"]),
   ("genres", ["r18dev", "fanza"]), ("maker", ["r18dev", "fanza"]),
   ("studio", ["r18dev", "fanza"]), ("series", ["r18dev", "fanza"]),
   ("release_date", ["r18dev", "fanza"]), ("runtime", ["r18dev", "fanza"]),
   ("description", ["r18dev", "fanza"]), ("cover_url", ["r18dev", "fanza"]),
   ("poster_url", ["r18dev", "fanza"]), ("gallery", ["r18dev", "fanza"])]

/-! ### Association-list (Python dict) lemmas -/

theorem dictGet_insert_self {α : Type} (m : List (String × α)) (k : String) (v : α) :
    dictGet (dictInsert m k v) k = some v := by
  induction m with
  | nil => simp [dictInsert, dictGet]
  | cons hd tl ih =>
    obtain ⟨k', w⟩ := hd
    by_cases h : k' = k
    · simp [dictInsert, h, dictGet]
    · simp [dictInsert, h, dictGet, ih]

theorem dictGet_insert_ne {α : Type} (m : List (String × α)) (k key : String) (v : α)
    (h : k ≠ key) : dictGet (dictInsert m k v) key = dictGet m key := by
  induction m with
  | nil => simp [dictInsert, dictGet, h]
  | cons hd tl ih =>
    obtain ⟨k', w⟩ := hd
    by_cases hk : k' = k
    · subst hk
      simp [dictInsert, dictGet, h]
    · simp [dictInsert, hk, dictGet, ih]

theorem dictGet_mem {α : Type} {m : List (String × α)} {k : String} {v : α}
    (h : dictGet m k = some v) : (k, v) ∈ m := by
  induction m with
  | nil => simp [dictGet] at h
  | cons hd tl ih =>
    obtain ⟨k', w⟩ := hd
    by_cases hk : k' = k
    · subst hk
      simp [dictGet] at h
      simp [h]
    · simp [dictGet, hk] at h
      exact List.mem_cons_of_mem _ (ih h)

theorem dictGet_map_pair (g : String → Option PRec) (enabled : List String)
    (name : String) (h : name ∈ enabled) :
    dictGet (enabled.map (fun n => (n, g n))) name = some (g name) := by
  induction enabled with
  | nil => simp at h
  | cons hd tl ih =>
    by_cases hk : hd = name
    · subst hk
      simp [dictGet]
    · rcases List.mem_cons.mp h with h1 | h1
      · exact absurd h1.symm hk
      · simp [dictGet, hk, ih h1]

/-! ### Fan-out coordinator: claims C6 and C7 -/

/-- Claim C6: during fan-out, an exception from one provider's lookup is
caught and recorded as `None` for that provider only; the returned mapping
has one entry per enabled provider in order, and every provider's entry is
determined by its own lookup outcome alone (so one provider's failure never
prevents the others from being queried, and the fan-out — being a total
function of the individual outcomes — never propagates a provider
exception). -/
theorem claim_C6_fanout_isolation {E : Type} (enabled : List String)
    (impl : String → Option (Except E (Option PRec))) :
    ((search_all_scrapers enabled impl).map Prod.fst = enabled) ∧
    (∀ name ∈ enabled,
      dictGet (search_all_scrapers enabled impl) name = some (scraperOutcome (impl name))) ∧
    (∀ name ∈ enabled, ∀ e : E, impl name = some (.error e) →
      dictGet (search_all_scrapers enabled impl) name = some none) := by
  refine ⟨?_, ?_, ?_⟩
  · induction enabled with
    | nil => rfl
    | cons hd tl ih => simp [search_all_scrapers] at ih ⊢; exact ih
  · intro name h
    exact dictGet_map_pair _ enabled name h
  · intro name h e he
    have := dictGet_map_pair (fun n => scraperOutcome (impl n)) enabled name h
    rw [search_all_scrapers, this]
    simp only [he]
    rfl

/-- A scraper implementation where provider `A` raises and provider `B`
succeeds, exercising claim C6. -/
def implC6 : String → Option (Except Unit (Option PRec)) :=
  fun n => if n = "A" then some (.error ()) else some (.ok (some [("title", .vStr "t")]))

/-- Witness for claim C6: with provider `A` raising and provider `B`
succeeding, `A` is recorded as `None` and `B`'s result is still collected. -/
theorem claim_C6_fanout_isolation_witness :
    dictGet (search_all_scrapers ["A", "B"] implC6) "A" = some none ∧
    dictGet (search_all_scrapers ["A", "B"] implC6) "B" =
      some (some [("title", Val.vStr "t")]) :=
  ⟨(claim_C6_fanout_isolation ["A", "B"] implC6).2.2 "A" (by simp) () rfl,
   ((claim_C6_fanout_isolation ["A", "B"] implC6).2.1 "B" (by simp)).trans rfl⟩

theorem allFields_of_all_none (results : Results)
    (h : ∀ pr ∈ results, pr.2 = none) : allFields results = [] := by
  unfold allFields
  induction results with
  | nil => rfl
  | cons hd tl ih =>
    have h1 : hd.2 = none := h hd (List.mem_cons_self _ _)
    simp only [List.foldl_cons, h1]
    exact ih (fun pr hpr => h pr (List.mem_cons_of_mem _ hpr))

theorem merge_metadata_lookup_of_no_fields (strategy : String)
    (fieldPriorities : List (String × List String)) (enabled : List String)
    (results : Results) (f : String) (hb : f ∉ bookkeepingKeys)
    (hall : allFields results = []) :
    dictGet (merge_metadata strategy fieldPriorities enabled results) f = none := by
  simp only [bookkeepingKeys, List.mem_cons, List.not_mem_nil, or_false, not_or] at hb
  obtain ⟨h1, h2, h3⟩ := hb
  unfold merge_metadata
  rw [hall]
  simp only [List.foldl_nil]
  rw [dictGet_insert_ne _ _ _ _ (fun h => h3 h.symm),
    dictGet_insert_ne _ _ _ _ (fun h => h2 h.symm),
    dictGet_insert_ne _ _ _ _ (fun h => h1 h.symm)]
  rfl

/-- Claim C7: when every enabled provider comes back empty (not found,
raised, or not creatable), the overall query returns `None` rather than
raising, and merging the all-absent results mapping yields a record with no
resolved fields (only the bookkeeping entries). -/
theorem claim_C7_all_not_found {E : Type} (strategy : String)
    (fieldPriorities : List (String × List String)) (enabled : List String)
    (impl : String → Option (Except E (Option PRec)))
    (h : ∀ name ∈ enabled, scraperOutcome (impl name) = none) :
    search_with_priority strategy fieldPriorities enabled impl = none ∧
    ∀ f, f ∉ bookkeepingKeys →
      dictGet (merge_metadata strategy fieldPriorities enabled
        (search_all_scrapers enabled impl)) f = none := by
  have hnone : ∀ pr ∈ search_all_scrapers enabled impl, pr.2 = none := by
    intro pr hpr
    simp only [search_all_scrapers, List.mem_map] at hpr
    obtain ⟨n, hn, rfl⟩ := hpr
    exact h n hn
  constructor
  · unfold search_with_priority
    rw [if_pos]
    rw [List.all_eq_true]
    intro pr hpr
    rw [hnone pr hpr]
    rfl
  · intro f hb
    exact merge_metadata_lookup_of_no_fields _ _ _ _ f hb
      (allFields_of_all_none _ hnone)

/-- A scraper implementation where provider `A` raises and provider `B`
returns no data, exercising claim C7. -/
def implC7 : String → Option (Except Unit (Option PRec)) :=
  fun n => if n = "A" then some (.error ()) else some (.ok none)

/-- Witness for claim C7: with `A` raising and `B` finding nothing, the
overall query returns `None` and the merged record resolves no `title`. -/
theorem claim_C7_all_not_found_witness :
    search_with_priority "priority" default_field_priorities ["A", "B"] implC7 = none ∧
    dictGet (merge_metadata "priority" default_field_priorities ["A", "B"]
      (search_all_scrapers ["A", "B"] implC7)) "title" = none := by
  have h := claim_C7_all_not_found "priority" default_field_priorities ["A", "B"] implC7
    (by intro name hn; fin_cases hn <;> rfl)
  exact ⟨h.1, h.2 "title" (by simp [bookkeepingKeys])⟩

/-! ### Field-set (`all_fields`) lemmas -/

theorem mem_insertNew (acc : List String) (k x : String) :
    x ∈ insertNew acc k ↔ x ∈ acc ∨ x = k := by
  unfold insertNew
  split
  · rename_i hk
    constructor
    · exact Or.inl
    · rintro (h | rfl)
      · exact h
      · exact hk
  · simp [List.mem_append]

theorem mem_foldl_insertNew (l acc : List String) (x : String) :
    x ∈ l.foldl insertNew acc ↔ x ∈ acc ∨ x ∈ l := by
  induction l generalizing acc with
  | nil => simp
  | cons hd tl ih =>
    rw [List.foldl_cons, ih, mem_insertNew]
    simp [List.mem_cons]
    tauto

theorem nodup_insertNew (acc : List String) (k : String) (h : acc.Nodup) :
    (insertNew acc k).Nodup := by
  unfold insertNew
  split
  · exact h
  · rename_i hk
    rw [← List.concat_eq_append]
    exact h.concat hk

theorem nodup_foldl_insertNew (l acc : List String) (h : acc.Nodup) :
    (l.foldl insertNew acc).Nodup := by
  induction l generalizing acc with
  | nil => exact h
  | cons hd tl ih => exact ih _ (nodup_insertNew acc hd h)

theorem mem_allFields_aux (results : Results) (acc : List String) (f : String) :
    f ∈ results.foldl
      (fun acc pr =>
        match pr.2 with
        | some r => if r.isEmpty then acc else (r.map Prod.fst).foldl insertNew acc
        | none => acc) acc ↔
    f ∈ acc ∨ ∃ p r, (p, some r) ∈ results ∧ f ∈ r.map Prod.fst := by
  induction results generalizing acc with
  | nil => simp
  | cons hd tl ih =>
    obtain ⟨p, o⟩ := hd
    rw [List.foldl_cons, ih]
    constructor
    · rintro (hstep | ⟨p', r', hm, hf⟩)
      · match o with
        | none => exact Or.inl hstep
        | some r =>
          simp only at hstep
          by_cases he : r.isEmpty
          · rw [if_pos he] at hstep
            exact Or.inl hstep
          · rw [if_neg he, mem_foldl_insertNew] at hstep
            rcases hstep with h | h
            · exact Or.inl h
            · exact Or.inr ⟨p, r, List.mem_cons_self _ _, h⟩
      · exact Or.inr ⟨p', r', List.mem_cons_of_mem _ hm, hf⟩
    · rintro (hacc | ⟨p', r', hm, hf⟩)
      · left
        match o with
        | none => exact hacc
        | some r =>
          simp only
          split
          · exact hacc
          · rw [mem_foldl_insertNew]
            exact Or.inl hacc
      · rcases List.mem_cons.mp hm with heq | hm'
        · left
          rw [Prod.mk.injEq] at heq
          obtain ⟨rfl, heq2⟩ := heq
          subst heq2
          simp only
          have hne : ¬r'.isEmpty := by
            intro he
            rw [List.isEmpty_iff] at he
            subst he
            simp at hf
          rw [if_neg hne, mem_foldl_insertNew]
          exact Or.inr hf
        · exact Or.inr ⟨p', r', hm', hf⟩

theorem mem_allFields (results : Results) (f : String) :
    f ∈ allFields results ↔ ∃ p r, (p, some r) ∈ results ∧ f ∈ r.map Prod.fst := by
  rw [allFields, mem_allFields_aux]
  simp

theorem allFields_nodup (results : Results) : (allFields results).Nodup := by
  unfold allFields
  suffices h : ∀ (rs : Results) (acc : List String), acc.Nodup →
      (rs.foldl
        (fun acc pr =>
          match pr.2 with
          | some r => if r.isEmpty then acc else (r.map Prod.fst).foldl insertNew acc
          | none => acc) acc).Nodup by
    exact h results [] List.nodup_nil
  intro rs
  induction rs with
  | nil => intro acc h; exact h
  | cons hd tl ih =>
    intro acc h
    rw [List.foldl_cons]
    apply ih
    match hd.2 with
    | none => exact h
    | some r =>
      simp only
      split
      · exact h
      · exact nodup_foldl_insertNew _ _ h

/-! ### Priority-walk lemmas -/

/-- The valid value provider `p` holds for `field`, if any: `p`'s entry must
be a record that contains the field with a valid value. -/
def providerValue (results : Results) (p field : String) : Option Val :=
  match dictGet results p with
  | some (some r) =>
    match dictGet r field with
    | some v => if is_valid_value v then some v else none
    | none => none
  | _ => none

theorem priorityLoop_eq_findSome (results : Results) (field : String)
    (plist : List String) :
    priorityLoop results field plist =
      plist.findSome? (fun p => (providerValue results p field).map (fun v => (v, p))) := by
  induction plist with
  | nil => rfl
  | cons name rest ih =>
    rw [List.findSome?_cons]
    unfold priorityLoop providerValue
    match hres : dictGet results name with
    | none => simpa using ih
    | some none => simpa using ih
    | some (some r) =>
      by_cases he : r.isEmpty
      · rw [List.isEmpty_iff] at he
        subst he
        simpa using ih
      · simp only [if_neg he]
        match hf : dictGet r field with
        | none => simpa using ih
        | some v =>
          by_cases hv : is_valid_value v
          · simp [hv]
          · simpa [hv] using ih

theorem priorityLoop_sound (results : Results) (field : String) :
    ∀ (plist : List String) (v : Val) (s : String),
      priorityLoop results field plist = some (v, s) →
      ∃ r, dictGet results s = some (some r) ∧ dictGet r field = some v ∧
        is_valid_value v = true := by
  intro plist
  induction plist with
  | nil => intro v s h; simp [priorityLoop] at h
  | cons name rest ih =>
    intro v s h
    unfold priorityLoop at h
    split at h
    · rename_i r hres
      split at h
      · exact ih v s h
      · rename_i hne
        split at h
        · rename_i w hf
          split at h
          · rename_i hv
            injection h with h'
            rw [Prod.mk.injEq] at h'
            obtain ⟨rfl, rfl⟩ := h'
            exact ⟨r, hres, hf, hv⟩
          · exact ih v s h
        · exact ih v s h
    · exact ih v s h

/-! ### The field loop of `merge_metadata` -/

/-- The `field_sources` dict accumulated by `merge_metadata`. -/
def fieldSources (strategy : String) (fieldPriorities : List (String × List String))
    (enabled : List String) (results : Results) : List (String × String) :=
  ((allFields results).foldl
    (mergeStep strategy fieldPriorities enabled results) ([], [])).2

theorem mergeStep_ne (strategy : String) (fieldPriorities : List (String × List String))
    (enabled : List String) (results : Results) (st : PRec × List (String × String))
    (g f : String) (h : g ≠ f) :
    dictGet (mergeStep strategy fieldPriorities enabled results st g).1 f =
      dictGet st.1 f ∧
    dictGet (mergeStep strategy fieldPriorities enabled results st g).2 f =
      dictGet st.2 f := by
  refine ⟨?_, ?_⟩ <;> unfold mergeStep
  · split
    · exact dictGet_insert_ne _ _ _ _ h
    · exact dictGet_insert_ne _ _ _ _ h
    · rfl
  · split
    · rename_i v s heq
      by_cases hs : s = ""

      · simp [hs]
      · simp only [if_neg hs]
        exact dictGet_insert_ne _ _ _ _ h
    · rfl
    · rfl

theorem foldl_mergeStep_not_mem (strategy : String)
    (fieldPriorities : List (String × List String)) (enabled : List String)
    (results : Results) (fields : List String) (f : String) (h : f ∉ fields)
    (st : PRec × List (String × String)) :
    dictGet (fields.foldl (mergeStep strategy fieldPriorities enabled results) st).1 f =
      dictGet st.1 f ∧
    dictGet (fields.foldl (mergeStep strategy fieldPriorities enabled results) st).2 f =
      dictGet st.2 f := by
  induction fields generalizing st with
  | nil => exact ⟨rfl, rfl⟩
  | cons g tl ih =>
    rw [List.mem_cons, not_or] at h
    obtain ⟨hg, htl⟩ := h
    rw [List.foldl_cons]
    have hstep := mergeStep_ne strategy fieldPriorities enabled results st g f
      (fun he => hg he.symm)
    have hrest := ih htl (mergeStep strategy fieldPriorities enabled results st g)
    exact ⟨hrest.1.trans hstep.1, hrest.2.trans hstep.2⟩

theorem foldl_mergeStep_mem (strategy : String)
    (fieldPriorities : List (String × List String)) (enabled : List String)
    (results : Results) (fields : List String) (f : String)
    (hnd : fields.Nodup) (h : f ∈ fields) (st : PRec × List (String × String)) :
    dictGet (fields.foldl (mergeStep strategy fieldPriorities enabled results) st).1 f =
      (match (get_field_by_priority_with_source strategy fieldPriorities enabled f results).1 with
       | some v => some v
       | none => dictGet st.1 f) ∧
    dictGet (fields.foldl (mergeStep strategy fieldPriorities enabled results) st).2 f =
      (match get_field_by_priority_with_source strategy fieldPriorities enabled f results with
       | (some _, some s) => if s = "" then dictGet st.2 f else some s
       | _ => dictGet st.2 f) := by
  induction fields generalizing st with
  | nil => simp at h
  | cons g tl ih =>
    rw [List.foldl_cons]
    by_cases hg : g = f
    · subst hg
      have hnm : g ∉ tl := (List.nodup_cons.mp hnd).1
      have hrest := foldl_mergeStep_not_mem strategy fieldPriorities enabled results tl g
        hnm (mergeStep strategy fieldPriorities enabled results st g)
      rcases hr : get_field_by_priority_with_source strategy fieldPriorities enabled g results
        with ⟨oa, ob⟩
      rcases oa with _ | v
      · exact ⟨hrest.1.trans (by unfold mergeStep; rw [hr]),
          hrest.2.trans (by unfold mergeStep; rw [hr])⟩
      · rcases ob with _ | s
        · refine ⟨hrest.1.trans ?_, hrest.2.trans ?_⟩ <;> unfold mergeStep <;> rw [hr]
          exact dictGet_insert_self _ _ _
        · refine ⟨hrest.1.trans ?_, hrest.2.trans ?_⟩ <;> unfold mergeStep <;> rw [hr]
          · exact dictGet_insert_self _ _ _
          · show dictGet (if s = "" then st.2 else dictInsert st.2 g s) g =
              if s = "" then dictGet st.2 g else some s
            by_cases hs : s = ""
            · rw [if_pos hs, if_pos hs]
            · rw [if_neg hs, if_neg hs]
              exact dictGet_insert_self _ _ _
    · have htl : f ∈ tl := by
        rcases List.mem_cons.mp h with h1 | h1
        · exact absurd h1.symm hg
        · exact h1
      have hstep := mergeStep_ne strategy fieldPriorities enabled results st g f hg
      have hrest := ih (List.nodup_cons.mp hnd).2 htl
        (mergeStep strategy fieldPriorities enabled results st g)
      rw [hrest.1, hrest.2, hstep.1, hstep.2]
      exact ⟨rfl, rfl⟩

/-- What `merge_metadata` resolves for a non-bookkeeping field: the value
chosen by `_get_field_by_priority_with_source` if the field occurs in any
truthy record, and nothing otherwise. -/
theorem merge_metadata_lookup (strategy : String)
    (fieldPriorities : List (String × List String)) (enabled : List String)
    (results : Results) (f : String) (hb : f ∉ bookkeepingKeys) :
    dictGet (merge_metadata strategy fieldPriorities enabled results) f =
      (if f ∈ allFields results then
        (get_field_by_priority_with_source strategy fieldPriorities enabled f results).1
       else none) := by
  simp only [bookkeepingKeys, List.mem_cons, List.not_mem_nil, or_false, not_or] at hb
  obtain ⟨h1, h2, h3⟩ := hb
  unfold merge_metadata
  rw [dictGet_insert_ne _ _ _ _ (fun h => h3 h.symm),
    dictGet_insert_ne _ _ _ _ (fun h => h2 h.symm),
    dictGet_insert_ne _ _ _ _ (fun h => h1 h.symm)]
  by_cases hmem : f ∈ allFields results
  · rw [if_pos hmem]
    have := (foldl_mergeStep_mem strategy fieldPriorities enabled results
      (allFields results) f (allFields_nodup results) hmem ([], [])).1
    rw [this]
    match (get_field_by_priority_with_source strategy fieldPriorities enabled f results).1 with
    | some v => rfl
    | none => rfl
  · rw [if_neg hmem]
    exact (foldl_mergeStep_not_mem strategy fieldPriorities enabled results
      (allFields results) f hmem ([], [])).1

/-- What `merge_metadata` records as provenance for a field resolved by the
priority walk with a truthy source name. -/
theorem merge_metadata_source (strategy : String)
    (fieldPriorities : List (String × List String)) (enabled : List String)
    (results : Results) (f : String) (hmem : f ∈ allFields results)
    (v : Val) (s : String)
    (hres : get_field_by_priority_with_source strategy fieldPriorities enabled f results
      = (some v, some s))
    (hs : s ≠ "") :
    dictGet (fieldSources strategy fieldPriorities enabled results) f = some s := by
  unfold fieldSources
  have := (foldl_mergeStep_mem strategy fieldPriorities enabled results
    (allFields results) f (allFields_nodup results) hmem ([], [])).2
  rw [this, hres]
  simp [hs]

theorem dictGet_map_vStr (m : List (String × String)) (f : String) :
    dictGet (m.map (fun kv => (kv.1, Val.vStr kv.2))) f =
      (dictGet m f).map Val.vStr := by
  induction m with
  | nil => rfl
  | cons hd tl ih =>
    obtain ⟨k, v⟩ := hd
    by_cases hk : k = f
    · simp [dictGet, hk]
    · simp [dictGet, hk, ih]

/-- The `_field_sources` bookkeeping entry of the merged record is the
accumulated provenance dict. -/
theorem merge_metadata_field_sources (strategy : String)
    (fieldPriorities : List (String × List String)) (enabled : List String)
    (results : Results) :
    dictGet (merge_metadata strategy fieldPriorities enabled results) "_field_sources" =
      some (.vDict ((fieldSources strategy fieldPriorities enabled results).map
        (fun kv => (kv.1, Val.vStr kv.2)))) := by
  unfold merge_metadata fieldSources
  exact dictGet_insert_self _ _ _

theorem get_field_eq_loop (strategy : String)
    (fieldPriorities : List (String × List String)) (enabled : List String)
    (f : String) (results : Results)
    (h : ¬(strategy = "merge" ∧ f ∈ listMergeFields)) :
    get_field_by_priority_with_source strategy fieldPriorities enabled f results =
      match priorityLoop results f ((dictGet fieldPriorities f).getD enabled) with
      | some p => (some p.1, some p.2)
      | none => (none, none) := by
  unfold get_field_by_priority_with_source
  rw [if_neg h]

theorem mem_allFields_of_loop (results : Results) (f : String) (plist : List String)
    (v : Val) (s : String) (h : priorityLoop results f plist = some (v, s)) :
    f ∈ allFields results := by
  obtain ⟨r, hres, hf, _⟩ := priorityLoop_sound results f plist v s h
  rw [mem_allFields]
  exact ⟨s, r, dictGet_mem hres, List.mem_map.mpr ⟨(f, v), dictGet_mem hf, rfl⟩⟩

/-! ### Claim C5: priority-mode resolution -/

/-- Claim C5: in the priority strategy, the merged value of every
non-bookkeeping field equals the value held by the first provider in the
field's priority list (its configured list, else the enabled order) whose
record contains the field with a valid value; providers holding an invalid
value (such as the empty string) are skipped exactly as if the field were
absent, and the field is omitted when no provider in the list holds a valid
value.  The winning provider is recorded as the field's provenance in the
`_field_sources` bookkeeping entry (for any nonempty provider name). -/
theorem claim_C5_priority_first_valid
    (fieldPriorities : List (String × List String)) (enabled : List String)
    (results : Results) (f : String) (hb : f ∉ bookkeepingKeys) :
    dictGet (merge_metadata "priority" fieldPriorities enabled results) f =
      Option.map Prod.fst
        (((dictGet fieldPriorities f).getD enabled).findSome?
          (fun p => (providerValue results p f).map (fun v => (v, p)))) ∧
    ∀ v s,
      (((dictGet fieldPriorities f).getD enabled).findSome?
        (fun p => (providerValue results p f).map (fun v => (v, p)))) = some (v, s) →
      s ≠ "" →
      ∃ fsrc,
        dictGet (merge_metadata "priority" fieldPriorities enabled results)
          "_field_sources" = some (.vDict fsrc) ∧
        dictGet fsrc f = some (.vStr s) := by
  have hnm : ¬(("priority" : String) = "merge" ∧ f ∈ listMergeFields) := by
    rintro ⟨h, _⟩
    exact absurd h (by decide)
  constructor
  · rw [← priorityLoop_eq_findSome, merge_metadata_lookup _ _ _ _ _ hb,
      get_field_eq_loop _ _ _ _ _ hnm]
    cases hW : priorityLoop results f ((dictGet fieldPriorities f).getD enabled) with
    | none => simp
    | some p =>
      obtain ⟨v, s⟩ := p
      rw [if_pos (mem_allFields_of_loop results f _ v s hW)]
      rfl
  · intro v s hW hs
    rw [← priorityLoop_eq_findSome] at hW
    have hres : get_field_by_priority_with_source "priority" fieldPriorities enabled f results
        = (some v, some s) := by
      rw [get_field_eq_loop _ _ _ _ _ hnm, hW]
    refine ⟨_, merge_metadata_field_sources _ _ _ _, ?_⟩
    rw [dictGet_map_vStr,
      merge_metadata_source "priority" fieldPriorities enabled results f
        (mem_allFields_of_loop results f _ v s hW) v s hres hs]
    rfl

/-- The results mapping of claim C5's validity-skipping example: provider
`A` holds `f = ""` (invalid) and provider `B` holds `f = "x"`. -/
def resultsC5 : Results :=
  [("A", some [("f", .vStr "")]), ("B", some [("f", .vStr "x")])]

/-- Witness for claim C5: with priority `[A, B]`, `A` holding `f = ""` and
`B` holding `f = "x"`, the merged `f` is `"x"` with provenance `B`. -/
theorem claim_C5_priority_first_valid_witness :
    dictGet (merge_metadata "priority" [("f", ["A", "B"])] ["A", "B"] resultsC5) "f"
      = some (.vStr "x") ∧
    ∃ fsrc,
      dictGet (merge_metadata "priority" [("f", ["A", "B"])] ["A", "B"] resultsC5)
        "_field_sources" = some (.vDict fsrc) ∧
      dictGet fsrc "f" = some (.vStr "B") := by
  have h := claim_C5_priority_first_valid [("f", ["A", "B"])] ["A", "B"] resultsC5 "f"
    (by simp [bookkeepingKeys])
  exact ⟨h.1.trans rfl, h.2 (.vStr "x") "B" rfl (by simp)⟩

/-! ### Claim C2: which fields a merged record may contain -/

/-- The results mapping refuting claim C2: one provider whose record holds
the designated list field `actresses` with the invalid value `[]`. -/
def resultsC2 : Results := [("A", some [("actresses", .vList [])])]

/-- Counterexample to claim C2 as stated: under the `merge` strategy, the
merged record maps `actresses` to `[]` although no provider holds a valid
value for that field. -/
theorem claim_C2_counterexample :
    dictGet (merge_metadata "merge" [] ["A"] resultsC2) "actresses"
      = some (.vList []) ∧
    "actresses" ∉ bookkeepingKeys ∧
    ¬∃ p r v, (p, some r) ∈ resultsC2 ∧ ("actresses", v) ∈ r ∧
      is_valid_value v = true := by
  refine ⟨rfl, by simp [bookkeepingKeys], ?_⟩
  rintro ⟨p, r, v, hm, hf, hv⟩
  simp only [resultsC2, List.mem_singleton, Prod.mk.injEq, Option.some.injEq] at hm
  obtain ⟨rfl, rfl⟩ := hm
  simp only [List.mem_singleton, Prod.mk.injEq] at hf
  rw [hf.2] at hv
  simp [is_valid_value] at hv

/-- Claim C2, amended: every non-bookkeeping field of the merged record is
present in at least one provider's partial record, and — except for the
designated list-merge fields under the `merge` strategy, which may resolve
to an empty merged list built from invalid (empty) provider lists — it is
present with a valid value in at least one provider's record. -/
theorem claim_C2_amended (strategy : String)
    (fieldPriorities : List (String × List String)) (enabled : List String)
    (results : Results) (f : String) (v : Val) (hb : f ∉ bookkeepingKeys)
    (hv : dictGet (merge_metadata strategy fieldPriorities enabled results) f = some v) :
    (∃ p r w, (p, some r) ∈ results ∧ (f, w) ∈ r) ∧
    (¬(strategy = "merge" ∧ f ∈ listMergeFields) →
      ∃ p r w, (p, some r) ∈ results ∧ (f, w) ∈ r ∧ is_valid_value w = true) := by
  rw [merge_metadata_lookup _ _ _ _ _ hb] at hv
  by_cases hmem : f ∈ allFields results
  · rw [if_pos hmem] at hv
    constructor
    · obtain ⟨p, r, hm, hf⟩ := (mem_allFields results f).mp hmem
      obtain ⟨pair, hpair, hfst⟩ := List.mem_map.mp hf
      obtain ⟨f', w⟩ := pair
      obtain rfl : f' = f := hfst
      exact ⟨p, r, w, hm, hpair⟩
    · intro hnm
      rw [get_field_eq_loop _ _ _ _ _ hnm] at hv
      cases hW : priorityLoop results f ((dictGet fieldPriorities f).getD enabled) with
      | none => rw [hW] at hv; simp at hv
      | some p =>
        obtain ⟨w, s⟩ := p
        obtain ⟨r, hres, hf, hval⟩ := priorityLoop_sound results f _ w s hW
        exact ⟨s, r, w, dictGet_mem hres, dictGet_mem hf, hval⟩
  · rw [if_neg hmem] at hv
    simp at hv

/-- The results mapping of claim C2's witness: provider `B` holds a valid
`title`. -/
def resultsC2w : Results := [("B", some [("title", .vStr "x")])]

/-- Witness for the amended claim C2, at a priority-strategy merge where
provider `B` supplies a valid `title`. -/
theorem claim_C2_amended_witness :
    (∃ p r w, (p, some r) ∈ resultsC2w ∧ ("title", w) ∈ r) ∧
    (¬(("priority" : String) = "merge" ∧ "title" ∈ listMergeFields) →
      ∃ p r w, (p, some r) ∈ resultsC2w ∧ ("title", w) ∈ r ∧
        is_valid_value w = true) :=
  claim_C2_amended "priority" [] ["B"] resultsC2w "title" (.vStr "x")
    (by simp [bookkeepingKeys]) rfl

/-! ### Claim C1: merging of the `genres` list field -/

/-- The results mapping of claim C1: provider `A` holds
`genres = ["Drama", "Comedy"]` and provider `B` holds
`genres = ["Comedy", "Action"]`. -/
def resultsC1 : Results :=
  [("A", some [("genres", .vList [.vStr "Drama", .vStr "Comedy"])]),
   ("B", some [("genres", .vList [.vStr "Comedy", .vStr "Action"])])]

/-- Claim C1 (code bug): with the merge strategy `"merge"` and priority
`[A, B]` for `genres`, the merged `genres` is provider `A`'s list unchanged
— not the de-duplicated concatenation `["Drama", "Comedy", "Action"]` the
spec requires — because `"genres"` is missing from the designated list-merge
field set (which names `"categories"`, a field no scraper emits, while both
scrapers emit their category lists under `genres`).  The list-merge routine
itself would produce the specified de-duplicated concatenation. -/
theorem claim_C1_genres_not_list_merged :
    dictGet (merge_metadata "merge" [("genres", ["A", "B"])] ["A", "B"] resultsC1) "genres"
      = some (.vList [.vStr "Drama", .vStr "Comedy"]) ∧
    dictGet (merge_metadata "merge" [("genres", ["A", "B"])] ["A", "B"] resultsC1) "genres"
      ≠ some (.vList [.vStr "Drama", .vStr "Comedy", .vStr "Action"]) ∧
    "genres" ∉ listMergeFields ∧
    merge_list_field [("genres", ["A", "B"])] ["A", "B"] "genres" resultsC1
      = [.vStr "Drama", .vStr "Comedy", .vStr "Action"] := by
  have h1 : dictGet (merge_metadata "merge" [("genres", ["A", "B"])] ["A", "B"] resultsC1)
      "genres" = some (.vList [.vStr "Drama", .vStr "Comedy"]) := rfl
  refine ⟨h1, ?_, by simp [listMergeFields], rfl⟩
  intro h
  rw [h1] at h
  simp at h

/-! ### Character-level lemmas for the normalizer -/

theorem keepChar_upperCh (c : Nat) : keepChar (upperCh c) = keepChar c := by
  rw [Bool.eq_iff_iff]
  simp only [keepChar, upperCh, isAlphaCh, isUpperAlpha, isLowerAlpha, isDigitCh, dashCh,
    Bool.or_eq_true, decide_eq_true_eq, beq_iff_eq]
  split_ifs with h
  · simp only [decide_eq_true_eq] at h
    omega
  · omega

theorem upperCh_upperCh (c : Nat) : upperCh (upperCh c) = upperCh c := by
  simp only [upperCh, isLowerAlpha]
  split_ifs with h1 h2
  · simp only [decide_eq_true_eq] at h1 h2
    omega
  · rfl
  · rfl

theorem isAlphaCh_upperCh (c : Nat) : isAlphaCh (upperCh c) = isAlphaCh c := by
  rw [Bool.eq_iff_iff]
  simp only [upperCh, isAlphaCh, isUpperAlpha, isLowerAlpha, Bool.or_eq_true, decide_eq_true_eq]
  split_ifs with h
  · simp only [decide_eq_true_eq] at h
    omega
  · omega

theorem isDigitCh_upperCh (c : Nat) : isDigitCh (upperCh c) = isDigitCh c := by
  rw [Bool.eq_iff_iff]
  simp only [upperCh, isDigitCh, isLowerAlpha, decide_eq_true_eq]
  split_ifs with h
  · simp only [decide_eq_true_eq] at h
    omega
  · omega

theorem upperCh_of_digit (c : Nat) (h : isDigitCh c = true) : upperCh c = c := by
  simp only [isDigitCh, decide_eq_true_eq] at h
  simp only [upperCh, isLowerAlpha]
  rw [if_neg]
  simp only [decide_eq_true_eq]
  omega

theorem upperCh_lowerCh (c : Nat) (h : isUpperAlpha c = true) : upperCh (lowerCh c) = c := by
  simp only [isUpperAlpha, decide_eq_true_eq] at h
  have h1 : lowerCh c = c + 32 := by
    simp only [lowerCh, isUpperAlpha,
      show decide (65 ≤ c ∧ c ≤ 90) = true by simp only [decide_eq_true_eq]; omega, if_true]
  rw [h1]
  simp only [upperCh, isLowerAlpha,
    show decide (97 ≤ c + 32 ∧ c + 32 ≤ 122) = true by simp only [decide_eq_true_eq]; omega,
    if_true]
  omega

theorem isLowerAlpha_lowerCh (c : Nat) (h : isUpperAlpha c = true) :
    isLowerAlpha (lowerCh c) = true := by
  simp only [isUpperAlpha, decide_eq_true_eq] at h
  have h1 : lowerCh c = c + 32 := by
    simp only [lowerCh, isUpperAlpha,
      show decide (65 ≤ c ∧ c ≤ 90) = true by simp only [decide_eq_true_eq]; omega, if_true]
  rw [h1]
  simp only [isLowerAlpha, decide_eq_true_eq]
  omega

/-! ### List-level lemmas for the normalizer -/

theorem filter_keep_map_upper (l : PyStr) :
    (l.map upperCh).filter keepChar = (l.filter keepChar).map upperCh := by
  induction l with
  | nil => rfl
  | cons c cs ih =>
    simp only [List.map_cons, List.filter_cons, keepChar_upperCh]
    by_cases hk : keepChar c
    · simp [hk, ih]
    · simp only [Bool.not_eq_true] at hk
      simp [hk, ih]

theorem filter_keep_idem (l : PyStr) :
    (l.filter keepChar).filter keepChar = l.filter keepChar := by
  induction l with
  | nil => rfl
  | cons c cs ih =>
    by_cases hk : keepChar c
    · simp [List.filter_cons, hk, ih]
    · simp only [Bool.not_eq_true] at hk
      simp [List.filter_cons, hk, ih]

theorem pyUpper_pyUpper (l : PyStr) : pyUpper (pyUpper l) = pyUpper l := by
  unfold pyUpper
  rw [List.map_map]
  exact List.map_congr_left (fun c _ => upperCh_upperCh c)

/-! ### Claim C3: the three transcoding examples -/

/-- Claim C3: `jav_code_to_content_id` maps `SONE-638` to `sone00638`
(default rule), `DHLD-011` to `36dhld00011` (numeric-prefix rule), and
`MILK-225` to `h_1240milk00225` (literal-prefix rule). -/
theorem claim_C3_transcode_examples :
    jav_code_to_content_id (pyOfString "SONE-638") = pyOfString "sone00638" ∧
    jav_code_to_content_id (pyOfString "DHLD-011") = pyOfString "36dhld00011" ∧
    jav_code_to_content_id (pyOfString "MILK-225") = pyOfString "h_1240milk00225" :=
  ⟨by decide, by decide, by decide⟩

/-! ### Claim C8: idempotence of normalization -/

/-- Claim C8: `normalize_jav_code` is idempotent. -/
theorem claim_C8_normalize_idempotent (s : PyStr) :
    normalize_jav_code (normalize_jav_code s) = normalize_jav_code s := by
  show pyUpper (cleanCode (pyUpper (cleanCode s))) = pyUpper (cleanCode s)
  unfold pyUpper cleanCode
  rw [filter_keep_map_upper, filter_keep_idem, List.map_map]
  exact List.map_congr_left (fun c _ => upperCh_upperCh c)

/-! ### Claim C9: fallback when the code does not split into two parts -/

theorem splitDash_ne_nil (l : PyStr) : splitDash l ≠ [] := by
  match l with
  | [] => simp [splitDash]
  | c :: cs =>
    simp only [splitDash]
    split
    · simp
    · rcases h : splitDash cs with _ | ⟨p, ps⟩ <;> simp

theorem splitDash_length (l : PyStr) : (splitDash l).length = l.count dashCh + 1 := by
  induction l with
  | nil => simp [splitDash]
  | cons c cs ih =>
    simp only [splitDash]
    by_cases hc : c = dashCh
    · simp [hc, List.count_cons, ih]
    · rcases h : splitDash cs with _ | ⟨p, ps⟩
      · exact absurd h (splitDash_ne_nil cs)
      · rw [h] at ih
        simp only [List.length_cons] at ih
        simp [hc, List.count_cons, ih]

theorem count_dash_cleanCode (l : PyStr) : (cleanCode l).count dashCh = l.count dashCh := by
  induction l with
  | nil => rfl
  | cons c cs ih =>
    simp only [cleanCode] at ih
    by_cases hk : keepChar c
    · simp [cleanCode, List.filter_cons, hk, List.count_cons, ih]
    · have hc : ¬(c = dashCh) := by
        intro h
        subst h
        simp [keepChar] at hk
      simp only [Bool.not_eq_true] at hk
      simp [cleanCode, List.filter_cons, hk, List.count_cons, hc, ih]

/-- Claim C9: when the input does not split on the hyphen into exactly two
parts, `jav_code_to_content_id` returns the lowercased input unchanged (and,
being a total function of its input, raises no error to the caller).
Hyphen-count — and hence split arity — is unaffected by the character
cleaning, so the condition can be read off the raw input. -/
theorem claim_C9_fallback (s : PyStr) (h : (splitDash s).length ≠ 2) :
    jav_code_to_content_id s = pyLower s := by
  have hc : (splitDash (cleanCode s)).length ≠ 2 := by
    rw [splitDash_length, count_dash_cleanCode, ← splitDash_length]
    exact h
  simp only [jav_code_to_content_id]
  rcases hsp : splitDash (cleanCode s) with _ | ⟨a, _ | ⟨b, _ | ⟨c, rest⟩⟩⟩
  · rfl
  · rfl
  · rw [hsp] at hc; simp at hc
  · rfl

/-- Witness for claim C9 at the hyphen-less input `"abc"`. -/
theorem claim_C9_fallback_witness :
    (splitDash (pyOfString "abc")).length ≠ 2 ∧
    jav_code_to_content_id (pyOfString "abc") = pyLower (pyOfString "abc") :=
  ⟨by decide, claim_C9_fallback (pyOfString "abc") (by decide)⟩

/-! ### Claim C10: idempotence of the best-effort inverse -/

theorem takeWhile_map_upper (p : Nat → Bool) (hp : ∀ c, p (upperCh c) = p c) (l : PyStr) :
    (l.map upperCh).takeWhile p = (l.takeWhile p).map upperCh := by
  induction l with
  | nil => rfl
  | cons c cs ih =>
    simp only [List.map_cons, List.takeWhile_cons, hp c]
    by_cases hc : p c
    · simp [hc, ih]
    · simp only [Bool.not_eq_true] at hc
      simp [hc]

theorem dropWhile_map_upper (p : Nat → Bool) (hp : ∀ c, p (upperCh c) = p c) (l : PyStr) :
    (l.map upperCh).dropWhile p = (l.dropWhile p).map upperCh := by
  induction l with
  | nil => rfl
  | cons c cs ih =>
    simp only [List.map_cons, List.dropWhile_cons, hp c]
    by_cases hc : p c
    · simp [hc, ih]
    · simp only [Bool.not_eq_true] at hc
      simp [hc]

theorem takeWhile_append_all (p : Nat → Bool) (l1 l2 : PyStr)
    (h : ∀ c ∈ l1, p c = true) :
    (l1 ++ l2).takeWhile p = l1 ++ l2.takeWhile p := by
  induction l1 with
  | nil => rfl
  | cons c cs ih =>
    have hc : p c = true := h c (List.mem_cons_self _ _)
    simp [List.takeWhile_cons, hc, ih (fun d hd => h d (List.mem_cons_of_mem _ hd))]

theorem dropWhile_append_all (p : Nat → Bool) (l1 l2 : PyStr)
    (h : ∀ c ∈ l1, p c = true) :
    (l1 ++ l2).dropWhile p = l2.dropWhile p := by
  induction l1 with
  | nil => rfl
  | cons c cs ih =>
    have hc : p c = true := h c (List.mem_cons_self _ _)
    simp [List.dropWhile_cons, hc, ih (fun d hd => h d (List.mem_cons_of_mem _ hd))]

theorem takeWhile_all (p : Nat → Bool) (l : PyStr) (h : ∀ c ∈ l, p c = true) :
    l.takeWhile p = l := by
  induction l with
  | nil => rfl
  | cons c cs ih =>
    simp [List.takeWhile_cons, h c (List.mem_cons_self _ _),
      ih (fun d hd => h d (List.mem_cons_of_mem _ hd))]

theorem mem_takeWhile (p : Nat → Bool) (l : PyStr) (x : Nat) (h : x ∈ l.takeWhile p) :
    p x = true ∧ x ∈ l := by
  induction l with
  | nil => simp [List.takeWhile] at h
  | cons c cs ih =>
    rw [List.takeWhile_cons] at h
    by_cases hc : p c
    · rw [if_pos hc] at h
      rcases List.mem_cons.mp h with rfl | h'
      · exact ⟨hc, List.mem_cons_self _ _⟩
      · obtain ⟨h1, h2⟩ := ih h'
        exact ⟨h1, List.mem_cons_of_mem _ h2⟩
    · simp only [Bool.not_eq_true] at hc
      rw [if_neg (by simp [hc])] at h
      simp at h

theorem mem_dropWhile (p : Nat → Bool) (l : PyStr) (x : Nat) (h : x ∈ l.dropWhile p) :
    x ∈ l := by
  induction l with
  | nil => simpa [List.dropWhile] using h
  | cons c cs ih =>
    rw [List.dropWhile_cons] at h
    by_cases hc : p c
    · rw [if_pos hc] at h
      exact List.mem_cons_of_mem _ (ih h)
    · simp only [Bool.not_eq_true] at hc
      rw [if_neg (by simp [hc])] at h
      exact h

theorem pyUpper_of_digits (l : PyStr) (h : ∀ c ∈ l, isDigitCh c = true) :
    pyUpper l = l := by
  unfold pyUpper
  have h2 := List.map_congr_left (fun c hc => upperCh_of_digit c (h c hc))
  rw [h2]
  simp

theorem stripIntZeros_digits (l : PyStr) (h : ∀ c ∈ l, isDigitCh c = true) :
    ∀ c ∈ stripIntZeros l, isDigitCh c = true := by
  unfold stripIntZeros
  rcases hd : l.dropWhile (fun c => c == zeroCh) with _ | ⟨r, rs⟩
  · intro c hc
    simp only [List.mem_singleton] at hc
    subst hc
    decide
  · intro c hc
    have hc2 : c ∈ r :: rs := hc
    rw [← hd] at hc2
    exact h c (mem_dropWhile _ _ _ hc2)

/-- The ASCII-model inverse transcoding is idempotent (used for the amended
claim C10 below, through the agreement of the ASCII and refined models on
ASCII inputs). -/
theorem inverse_idem_ascii_model (s : PyStr) :
    content_id_to_jav_code (content_id_to_jav_code s) = content_id_to_jav_code s := by
  have halpha : ∀ c, isAlphaCh (upperCh c) = isAlphaCh c := isAlphaCh_upperCh
  have hdigit : ∀ c, isDigitCh (upperCh c) = isDigitCh c := isDigitCh_upperCh
  by_cases hfb : s.takeWhile isAlphaCh = [] ∨ (s.dropWhile isAlphaCh).takeWhile isDigitCh = []
  · -- fallback branch: the result is the uppercased input, and uppercasing
    -- preserves the failure of the letters-then-digits match
    have h1 : content_id_to_jav_code s = pyUpper s := by
      simp only [content_id_to_jav_code, if_pos hfb]
    rw [h1]
    have h2 : (pyUpper s).takeWhile isAlphaCh = [] ∨
        ((pyUpper s).dropWhile isAlphaCh).takeWhile isDigitCh = [] := by
      rcases hfb with h | h
      · left
        unfold pyUpper
        rw [takeWhile_map_upper _ halpha, h]
        rfl
      · right
        unfold pyUpper
        rw [dropWhile_map_upper _ halpha, takeWhile_map_upper _ hdigit, h]
        rfl
    simp only [content_id_to_jav_code, if_pos h2]
    exact pyUpper_pyUpper s
  · push_neg at hfb
    obtain ⟨hL, hD⟩ := hfb
    have h1 : content_id_to_jav_code s =
        pyUpper (s.takeWhile isAlphaCh) ++ dashCh ::
          stripIntZeros ((s.dropWhile isAlphaCh).takeWhile isDigitCh) := by
      simp only [content_id_to_jav_code]
      rw [if_neg (by simp [hL, hD])]
    rw [h1]
    -- the letters of the produced code
    have hTalpha : ∀ c ∈ pyUpper (s.takeWhile isAlphaCh), isAlphaCh c = true := by
      intro c hc
      unfold pyUpper at hc
      obtain ⟨a, ha, rfl⟩ := List.mem_map.mp hc
      rw [isAlphaCh_upperCh]
      exact (mem_takeWhile _ _ _ ha).1
    have hddig : ∀ c ∈ stripIntZeros ((s.dropWhile isAlphaCh).takeWhile isDigitCh),
        isDigitCh c = true :=
      stripIntZeros_digits _ (fun c hc => (mem_takeWhile _ _ _ hc).1)
    -- the second application falls into the fallback branch
    have hsplit : (pyUpper (s.takeWhile isAlphaCh) ++ dashCh ::
        stripIntZeros ((s.dropWhile isAlphaCh).takeWhile isDigitCh)).dropWhile isAlphaCh =
        dashCh :: stripIntZeros ((s.dropWhile isAlphaCh).takeWhile isDigitCh) := by
      rw [dropWhile_append_all _ _ _ hTalpha, List.dropWhile_cons,
        if_neg (by decide)]
    have hfb2 : (pyUpper (s.takeWhile isAlphaCh) ++ dashCh ::
        stripIntZeros ((s.dropWhile isAlphaCh).takeWhile isDigitCh)).takeWhile isAlphaCh = [] ∨
        ((pyUpper (s.takeWhile isAlphaCh) ++ dashCh ::
          stripIntZeros ((s.dropWhile isAlphaCh).takeWhile isDigitCh)).dropWhile
            isAlphaCh).takeWhile isDigitCh = [] := by
      right
      rw [hsplit, List.takeWhile_cons, if_neg (by decide)]
    simp only [content_id_to_jav_code, if_pos hfb2]
    have e1 := pyUpper_pyUpper (s.takeWhile isAlphaCh)
    have e2 := pyUpper_of_digits _ hddig
    unfold pyUpper
    unfold pyUpper at e1 e2
    rw [List.map_append, List.map_cons, e1, e2,
      show upperCh dashCh = dashCh from by decide]

theorem upperChU_ascii (c : Nat) (h : c < 128) : upperChU c = upperCh c := by
  unfold upperChU
  rw [if_neg (by omega), if_neg (by omega)]

/-- On ASCII inputs the refined model agrees with the ASCII model. -/
theorem content_id_to_jav_code_u_ascii (s : PyStr) (h : ∀ c ∈ s, c < 128) :
    content_id_to_jav_code_u s = content_id_to_jav_code s := by
  have hmap : ∀ (l : PyStr), (∀ c ∈ l, c < 128) → l.map upperChU = l.map upperCh :=
    fun l hl => List.map_congr_left (fun c hc => upperChU_ascii c (hl c hc))
  simp only [content_id_to_jav_code_u, content_id_to_jav_code, pyUpperU, pyUpper]
  rw [hmap s h, hmap _ (fun c hc => h c (mem_takeWhile _ _ _ hc).2)]

theorem upperCh_lt_128 (c : Nat) (h : c < 128) : upperCh c < 128 := by
  unfold upperCh
  split
  · omega
  · omega

/-- `content_id_to_jav_code` maps ASCII strings to ASCII strings. -/
theorem content_id_to_jav_code_ascii_out (s : PyStr) (h : ∀ c ∈ s, c < 128) :
    ∀ c ∈ content_id_to_jav_code s, c < 128 := by
  by_cases hfb : s.takeWhile isAlphaCh = [] ∨ (s.dropWhile isAlphaCh).takeWhile isDigitCh = []
  · simp only [content_id_to_jav_code, if_pos hfb]
    intro c hc
    obtain ⟨a, ha, rfl⟩ := List.mem_map.mp hc
    exact upperCh_lt_128 a (h a ha)
  · simp only [content_id_to_jav_code, if_neg hfb]
    intro c hc
    rcases List.mem_append.mp hc with h1 | h1
    · obtain ⟨a, ha, rfl⟩ := List.mem_map.mp h1
      exact upperCh_lt_128 a (h a ((mem_takeWhile _ _ _ ha).2))
    · rcases List.mem_cons.mp h1 with rfl | h2
      · simp [dashCh]
      · have hdig := stripIntZeros_digits _
          (fun d hd => (mem_takeWhile _ _ _ hd).1) c h2
        simp only [isDigitCh, decide_eq_true_eq] at hdig
        omega

/-- Counterexample to claim C10 as stated: at the input `"ı1"` (U+0131
LATIN SMALL LETTER DOTLESS I, then `1`), the letters-then-digits match fails
— `[a-zA-Z]` is ASCII — so the function returns the `upper()`-cased input
`"I1"`; applying it again matches and yields `"I-1"`.  The inverse
transcoding is therefore not idempotent on all inputs. -/
theorem claim_C10_counterexample :
    content_id_to_jav_code_u (pyOfString "ı1") = pyOfString "I1" ∧
    content_id_to_jav_code_u (content_id_to_jav_code_u (pyOfString "ı1"))
      = pyOfString "I-1" ∧
    content_id_to_jav_code_u (content_id_to_jav_code_u (pyOfString "ı1"))
      ≠ content_id_to_jav_code_u (pyOfString "ı1") := by
  refine ⟨by decide, by decide, by decide⟩

/-- Claim C10, amended: the best-effort inverse transcoding is idempotent on
ASCII inputs — where the letters-then-digits shape and the case mapping are
exactly the modelled ones.  On general Unicode input the program is not
idempotent (see the counterexample): `str.upper()` can map a non-ASCII
letter into `[a-zA-Z]`, turning a fallback result into a matching one. -/
theorem claim_C10_inverse_idempotent_ascii (s : PyStr) (h : ∀ c ∈ s, c < 128) :
    content_id_to_jav_code_u (content_id_to_jav_code_u s)
      = content_id_to_jav_code_u s := by
  rw [content_id_to_jav_code_u_ascii s h,
    content_id_to_jav_code_u_ascii _ (content_id_to_jav_code_ascii_out s h)]
  exact inverse_idem_ascii_model s

/-- Witness for the amended claim C10 at the ASCII input `"sone00638"`. -/
theorem claim_C10_inverse_idempotent_ascii_witness :
    content_id_to_jav_code_u (content_id_to_jav_code_u (pyOfString "sone00638"))
      = content_id_to_jav_code_u (pyOfString "sone00638") :=
  claim_C10_inverse_idempotent_ascii (pyOfString "sone00638") (by decide)

/-! ### Claim C4: the best-effort round trip -/

theorem keepChar_of_upperAlpha (c : Nat) (h : isUpperAlpha c = true) : keepChar c = true := by
  simp only [isUpperAlpha, decide_eq_true_eq] at h
  simp only [keepChar, isAlphaCh, isUpperAlpha, isLowerAlpha, isDigitCh, Bool.or_eq_true,
    decide_eq_true_eq, beq_iff_eq, dashCh]
  omega

theorem keepChar_of_digit (c : Nat) (h : isDigitCh c = true) : keepChar c = true := by
  simp only [isDigitCh, decide_eq_true_eq] at h
  simp only [keepChar, isAlphaCh, isUpperAlpha, isLowerAlpha, isDigitCh, Bool.or_eq_true,
    decide_eq_true_eq, beq_iff_eq, dashCh]
  omega

theorem ne_dash_of_upperAlpha (c : Nat) (h : isUpperAlpha c = true) : c ≠ dashCh := by
  simp only [isUpperAlpha, decide_eq_true_eq] at h
  simp only [dashCh]
  omega

theorem ne_dash_of_digit (c : Nat) (h : isDigitCh c = true) : c ≠ dashCh := by
  simp only [isDigitCh, decide_eq_true_eq] at h
  simp only [dashCh]
  omega

theorem not_alpha_of_digit (c : Nat) (h : isDigitCh c = true) : isAlphaCh c = false := by
  simp only [isDigitCh, decide_eq_true_eq] at h
  simp only [isAlphaCh, isUpperAlpha, isLowerAlpha, Bool.or_eq_false_iff,
    decide_eq_false_iff_not]
  omega

theorem isAlphaCh_of_lowerCh (c : Nat) (h : isUpperAlpha c = true) :
    isAlphaCh (lowerCh c) = true := by
  simp only [isAlphaCh, Bool.or_eq_true]
  right
  exact isLowerAlpha_lowerCh c h

theorem cleanCode_all_keep (l : PyStr) (h : ∀ c ∈ l, keepChar c = true) :
    cleanCode l = l := by
  induction l with
  | nil => rfl
  | cons c cs ih =>
    simp only [cleanCode, List.filter_cons, h c (List.mem_cons_self _ _), if_true]
    rw [show List.filter keepChar cs = cleanCode cs from rfl,
      ih (fun d hd => h d (List.mem_cons_of_mem _ hd))]

theorem splitDash_no_dash (l : PyStr) (h : dashCh ∉ l) : splitDash l = [l] := by
  induction l with
  | nil => rfl
  | cons c cs ih =>
    simp only [List.mem_cons, not_or] at h
    obtain ⟨h1, h2⟩ := h
    simp only [splitDash]
    rw [if_neg (fun he => h1 he.symm), ih h2]

theorem splitDash_append_dash (a b : PyStr) (h : dashCh ∉ a) :
    splitDash (a ++ dashCh :: b) = a :: splitDash b := by
  induction a with
  | nil => simp [splitDash]
  | cons c cs ih =>
    simp only [List.mem_cons, not_or] at h
    obtain ⟨h1, h2⟩ := h
    simp only [List.cons_append, splitDash, List.append_eq]
    rw [if_neg (fun he => h1 he.symm), ih h2]

theorem tableGet_eq_none {α : Type} (l : List (PyStr × α)) (key : PyStr)
    (h : key ∉ l.map Prod.fst) : tableGet l key = none := by
  induction l with
  | nil => rfl
  | cons kv rest ih =>
    obtain ⟨k, v⟩ := kv
    simp only [List.map_cons, List.mem_cons, not_or] at h
    simp only [tableGet]
    rw [if_neg (fun he => h.1 he.symm), ih h.2]

/-- The prefixes handled by any of the special transcoding rules of
`jav_code_to_content_id`; every other prefix takes the default rule. -/
def specialPrefixes : List PyStr :=
  pyOfString "t28" :: pyOfString "abf" :: pyOfString "abw" ::
    (noZeroPadCodes ++ prefix1Codes ++
      hPrefixCodes.map Prod.fst ++ numericPrefixCodes.map Prod.fst)

theorem jav_default_rule (P N : PyStr)
    (hPalpha : ∀ c ∈ P, isUpperAlpha c = true)
    (hNdig : ∀ c ∈ N, isDigitCh c = true)
    (hdef : pyLower P ∉ specialPrefixes) :
    jav_code_to_content_id (P ++ dashCh :: N) = pyLower P ++ zfill 5 N := by
  have hPd : dashCh ∉ P := fun hm => ne_dash_of_upperAlpha _ (hPalpha _ hm) rfl
  have hNd : dashCh ∉ N := fun hm => ne_dash_of_digit _ (hNdig _ hm) rfl
  have hclean : cleanCode (P ++ dashCh :: N) = P ++ dashCh :: N := by
    apply cleanCode_all_keep
    intro c hc
    rcases List.mem_append.mp hc with h | h
    · exact keepChar_of_upperAlpha c (hPalpha c h)
    · rcases List.mem_cons.mp h with rfl | h
      · decide
      · exact keepChar_of_digit c (hNdig c h)
  have hsplit : splitDash (cleanCode (P ++ dashCh :: N)) = [P, N] := by
    rw [hclean, splitDash_append_dash _ _ hPd, splitDash_no_dash _ hNd]
  have ht28 : ¬(pyLower P = pyOfString "t28") :=
    fun h => hdef (by rw [h]; simp [specialPrefixes])
  have habf : ¬(pyLower P = pyOfString "abf") :=
    fun h => hdef (by rw [h]; simp [specialPrefixes])
  have habw : ¬(pyLower P = pyOfString "abw") :=
    fun h => hdef (by rw [h]; simp [specialPrefixes])
  have hnzp : pyLower P ∉ noZeroPadCodes :=
    fun h => hdef (by simp only [specialPrefixes, List.mem_cons, List.mem_append]; tauto)
  have hp1 : pyLower P ∉ prefix1Codes :=
    fun h => hdef (by simp only [specialPrefixes, List.mem_cons, List.mem_append]; tauto)
  have hh : pyLower P ∉ hPrefixCodes.map Prod.fst :=
    fun h => hdef (by simp only [specialPrefixes, List.mem_cons, List.mem_append]; tauto)
  have hnum : pyLower P ∉ numericPrefixCodes.map Prod.fst :=
    fun h => hdef (by simp only [specialPrefixes, List.mem_cons, List.mem_append]; tauto)
  simp only [jav_code_to_content_id, hsplit]
  rw [if_neg ht28, if_neg (by rw [not_or]; exact ⟨habf, habw⟩), if_neg hnzp, if_neg hp1,
    tableGet_eq_none _ _ hh, tableGet_eq_none _ _ hnum]


theorem stripIntZeros_zfill (N : PyStr) (hN : N ≠ [])
    (hlead : N = [zeroCh] ∨ N.head? ≠ some zeroCh) :
    stripIntZeros (zfill 5 N) = N := by
  rcases hlead with h0 | hh
  · subst h0
    decide
  · cases N with
    | nil => exact absurd rfl hN
    | cons n ns =>
      have hrep : ∀ c ∈ List.replicate (5 - (n :: ns).length) zeroCh,
          (c == zeroCh) = true := by
        intro c hc
        rw [List.eq_of_mem_replicate hc]
        simp
      have hn : ¬((n == zeroCh) = true) := by
        simp only [List.head?_cons, ne_eq, Option.some.injEq] at hh
        simp only [beq_iff_eq]
        exact fun h => hh h
      unfold stripIntZeros zfill
      rw [dropWhile_append_all _ _ _ hrep, List.dropWhile_cons, if_neg hn]

/-- Claim C4, amended: the round trip holds for every code `P-N` whose
prefix `P` is a nonempty run of (uppercase) letters outside every special
rule table (so the default rule applies) and whose numeric part `N` is a
nonempty digit run in canonical form (no leading zeros).  A prefix
containing digits — allowed by the spec data model — breaks the round trip,
see the counterexample. -/
theorem claim_C4_roundtrip_amended (P N : PyStr)
    (hP : P ≠ []) (hPalpha : ∀ c ∈ P, isUpperAlpha c = true)
    (hN : N ≠ []) (hNdig : ∀ c ∈ N, isDigitCh c = true)
    (hlead : N = [zeroCh] ∨ N.head? ≠ some zeroCh)
    (hdef : pyLower P ∉ specialPrefixes) :
    content_id_to_jav_code (jav_code_to_content_id (P ++ dashCh :: N))
      = P ++ dashCh :: N := by
  rw [jav_default_rule P N hPalpha hNdig hdef]
  have hlow : ∀ c ∈ pyLower P, isAlphaCh c = true := by
    intro c hc
    obtain ⟨a, ha, rfl⟩ := List.mem_map.mp hc
    exact isAlphaCh_of_lowerCh a (hPalpha a ha)
  have hzdig : ∀ c ∈ zfill 5 N, isDigitCh c = true := by
    intro c hc
    rcases List.mem_append.mp hc with h | h
    · rw [List.eq_of_mem_replicate h]
      decide
    · exact hNdig c h
  have htw : (pyLower P ++ zfill 5 N).takeWhile isAlphaCh = pyLower P := by
    rw [takeWhile_append_all _ _ _ hlow]
    have hz : (zfill 5 N).takeWhile isAlphaCh = [] := by
      cases hzc : zfill 5 N with
      | nil => rfl
      | cons d ds =>
        have hd := hzdig d (by rw [hzc]; exact List.mem_cons_self d ds)
        rw [List.takeWhile_cons, if_neg (by simp [not_alpha_of_digit d hd])]
    rw [hz, List.append_nil]
  have hdw : (pyLower P ++ zfill 5 N).dropWhile isAlphaCh = zfill 5 N := by
    rw [dropWhile_append_all _ _ _ hlow]
    cases hzc : zfill 5 N with
    | nil => rfl
    | cons d ds =>
      have hd := hzdig d (by rw [hzc]; exact List.mem_cons_self d ds)
      rw [List.dropWhile_cons, if_neg (by simp [not_alpha_of_digit d hd])]
  have htwd : (zfill 5 N).takeWhile isDigitCh = zfill 5 N := takeWhile_all _ _ hzdig
  have hzne : zfill 5 N ≠ [] := by
    unfold zfill
    intro h
    exact hN (List.append_eq_nil.mp h).2
  have hlne : pyLower P ≠ [] := by
    unfold pyLower
    simp [hP]
  simp only [content_id_to_jav_code, htw, hdw, htwd]
  rw [if_neg (by simp [hlne, hzne])]
  congr 1
  · unfold pyUpper pyLower
    rw [List.map_map]
    have h2 : List.map (upperCh ∘ lowerCh) P = List.map id P :=
      List.map_congr_left (fun c hc => upperCh_lowerCh c (hPalpha c hc))
    rw [h2, List.map_id]
  · rw [stripIntZeros_zfill N hN hlead]

/-- Counterexample to claim C4 as stated: `AB3-123` has canonical
`PREFIX-NUMBER` shape (alphanumeric prefix, digits without leading zeros)
and its prefix `ab3` falls under the default rule, yet the round trip
returns `AB-300123`, not `AB3-123`: the inverse parse stops the prefix at
the first digit. -/
theorem claim_C4_counterexample :
    splitDash (pyOfString "AB3-123") = [pyOfString "AB3", pyOfString "123"] ∧
    (pyOfString "123").all isDigitCh = true ∧
    (pyOfString "123").head? ≠ some zeroCh ∧
    pyLower (pyOfString "AB3") ∉ specialPrefixes ∧
    content_id_to_jav_code (jav_code_to_content_id (pyOfString "AB3-123"))
      ≠ pyOfString "AB3-123" := by
  refine ⟨by decide, by decide, by decide, by decide, by decide⟩

/-- Witness for the amended claim C4 at the code `SONE-638`. -/
theorem claim_C4_roundtrip_amended_witness :
    content_id_to_jav_code (jav_code_to_content_id
      (pyOfString "SONE" ++ dashCh :: pyOfString "638"))
      = pyOfString "SONE" ++ dashCh :: pyOfString "638" :=
  claim_C4_roundtrip_amended (pyOfString "SONE") (pyOfString "638")
    (by decide) (by decide) (by decide) (by decide) (by decide) (by decide)

end JavNfo
